import Mathlib

/-!
Shallow embedding of the note store of `llm_code_assistant/utils/notes_manager.py`
(`NotesManager`).

Modelling choices:
* Python strings are `List Char`; `str.lower()` is `List.map Char.toLower`;
  the Python substring test `a in b` is `occursIn a b`.
* The wall clock is passed explicitly: every operation that reads
  `time.time()` takes a `now : Nat` argument (one clock tick corresponds to
  the millisecond granularity used by id generation, `int(time.time()*1000)`).
* The store state is the in-memory index (`self.index["notes"]`, a list of
  metadata records) together with the content-blob filesystem, modelled as a
  map from note id to optional blob text (`<id>.txt` files).
* Python dicts for `context` are association lists with first-key lookup;
  `dict.update` is `dictUpdate` (overwrite values of existing keys in place,
  append new keys in order).
* JSON records handed to `import_notes` are `Record`s whose fields are
  `Option`s (`none` = key absent from the JSON object).
-/

/-- Python strings, embedded as lists of characters. -/
abbrev Str := List Char

/-- `str.lower()`. -/
def lowerStr (s : Str) : Str := s.map Char.toLower

/-- Bool test that `p` begins `l` (helper for the substring test). -/
def leadsWith : Str → Str → Bool
  | [], _ => true
  | _ :: _, [] => false
  | a :: as, b :: bs => a == b && leadsWith as bs

/-- The Python substring test `needle in hay` for strings. -/
def occursIn (needle : Str) : Str → Bool
  | [] => leadsWith needle []
  | c :: rest => leadsWith needle (c :: rest) || occursIn needle rest

/-- Decimal digit character, as produced by Python string formatting. -/
def digitChar (n : Nat) : Char := Char.ofNat (48 + n)

/-- Decimal rendering of a natural number (fuel-based so it reduces). -/
def natDigitsAux (fuel : Nat) (n : Nat) : Str :=
  match fuel with
  | 0 => []
  | fuel + 1 =>
    if n < 10 then [digitChar n]
    else natDigitsAux fuel (n / 10) ++ [digitChar (n % 10)]

/-- Decimal rendering of a natural number, as `f"{n}"` does in Python. -/
def natDigits (n : Nat) : Str := natDigitsAux (n + 1) n

/-- The id generated by `add_note`: `f"note_{int(time.time() * 1000)}"`,
with the clock tick `now` standing for `int(time.time() * 1000)`. -/
def noteIdOf (now : Nat) : Str := ('n' :: 'o' :: 't' :: 'e' :: '_' :: []) ++ natDigits now

/-- A context map (Python dict of string keys and values) as an ordered
association list. -/
abbrev Ctx := List (Str × Str)

/-- Overwrite one existing dict entry with the value `u` supplies for its
key, if any (helper for `dictUpdate`). -/
def owEntry (u : Ctx) (p : Str × Str) : Str × Str :=
  match u.find? (fun q => q.1 == p.1) with
  | some q => (p.1, q.2)
  | none => p

/-- Python `d.update(u)` on an ordered dict: values of keys already in `d`
are overwritten in place, new keys of `u` are appended in order. -/
def dictUpdate (d u : Ctx) : Ctx :=
  d.map (owEntry u) ++ u.filter (fun q => !(d.any (fun p => p.1 == q.1)))

/-- One catalog entry of `self.index["notes"]`: the note metadata dict
written by `add_note` / `import_notes`. -/
structure NoteMeta where
  id : Str
  title : Str
  created : Nat
  updated : Nat
  tags : List Str
  context : Ctx
deriving DecidableEq, Repr

/-- The note metadata with the `updated` field erased (used to state which
fields an operation leaves unchanged). -/
def eraseUpd (n : NoteMeta) : Str × Str × Nat × List Str × Ctx :=
  (n.id, n.title, n.created, n.tags, n.context)

/-- The store state: the index list plus the content-blob files, as a map
from note id to the optional blob text. -/
structure Store where
  index : List NoteMeta
  contents : Str → Option Str

/-- A store with an empty catalog and no content blobs. -/
def emptyStore : Store := ⟨[], fun _ => none⟩

/-- Writing the blob file `<id>.txt` (creates or overwrites). -/
def blobWrite (cs : Str → Option Str) (i : Str) (c : Str) : Str → Option Str :=
  fun x => if x = i then some c else cs x

/-- Removing the blob file `<id>.txt` (no-op when absent). -/
def blobDelete (cs : Str → Option Str) (i : Str) : Str → Option Str :=
  fun x => if x = i then none else cs x

/-- `add_note(title, content, tags, context)` at clock tick `now`: generate
`note_{now}`, append the metadata entry, write the content blob, return the
new id. -/
def add_note (s : Store) (now : Nat) (title content : Str)
    (tags : List Str) (context : Ctx) : Store × Str :=
  let note_id := noteIdOf now
  let meta : NoteMeta :=
    { id := note_id, title := title, created := now, updated := now
      tags := tags, context := context }
  ({ index := s.index ++ [meta], contents := blobWrite s.contents note_id content },
   note_id)

/-- The first catalog entry whose id equals `i` (the index scan loops of
`update_note` / `delete_note` / `get_note` stop at the first match). -/
def findNote (l : List NoteMeta) (i : Str) : Option NoteMeta :=
  l.find? (fun n => n.id == i)

/-- Replace the first catalog entry whose id equals `i` by `f` of it. -/
def updateFirst : List NoteMeta → Str → (NoteMeta → NoteMeta) → List NoteMeta
  | [], _, _ => []
  | n :: rest, i, f =>
    if n.id == i then f n :: rest else n :: updateFirst rest i f

/-- Remove the first catalog entry whose id equals `i`. -/
def removeFirst : List NoteMeta → Str → List NoteMeta
  | [], _ => []
  | n :: rest, i => if n.id == i then rest else n :: removeFirst rest i

/-- The metadata update applied by `update_note`: overwrite `title`/`tags`
when supplied, merge `context` into the existing dict when supplied, and
refresh `updated` to `now`. -/
def applyUpdate (now : Nat) (title : Option Str) (tags : Option (List Str))
    (context : Option Ctx) (n : NoteMeta) : NoteMeta :=
  { id := n.id
    title := title.getD n.title
    created := n.created
    updated := now
    tags := tags.getD n.tags
    context := match context with
               | some c => dictUpdate n.context c
               | none => n.context }

/-- `update_note(note_id, title, content, tags, context)` at tick `now`
(`none` arguments are Python `None`): `False` when the id is absent,
otherwise update the first matching entry and rewrite the blob when
`content` is given. -/
def update_note (s : Store) (now : Nat) (note_id : Str) (title : Option Str)
    (content : Option Str) (tags : Option (List Str)) (context : Option Ctx) :
    Store × Bool :=
  match findNote s.index note_id with
  | none => (s, false)
  | some _ =>
    ({ index := updateFirst s.index note_id (applyUpdate now title tags context)
       contents := match content with
                   | some c => blobWrite s.contents note_id c
                   | none => s.contents },
     true)

/-- `delete_note(note_id)`: `False` when the id is absent, otherwise remove
the first matching catalog entry and the content blob. -/
def delete_note (s : Store) (note_id : Str) : Store × Bool :=
  match findNote s.index note_id with
  | none => (s, false)
  | some _ =>
    ({ index := removeFirst s.index note_id
       contents := blobDelete s.contents note_id },
     true)

/-- `get_note(note_id)`: the first matching catalog entry together with its
blob content, or `None` when the entry or the blob is missing. -/
def get_note (s : Store) (note_id : Str) : Option (NoteMeta × Str) :=
  match findNote s.index note_id with
  | none => none
  | some meta =>
    match s.contents note_id with
    | none => none
    | some content => some (meta, content)

/-- The filter test of `list_notes`: a Python-falsy (absent or empty) `tag`
or `context_key` imposes no constraint; a Python-falsy `context_value`
means any value for the key is accepted. -/
def passesFilters (tag ck cv : Option Str) (n : NoteMeta) : Bool :=
  (match tag with
   | none => true
   | some t =>
     if t.isEmpty then true else n.tags.any (fun u => u == t)) &&
  (match ck with
   | none => true
   | some k =>
     if k.isEmpty then true
     else
       match n.context.find? (fun p => p.1 == k) with
       | none => false
       | some p =>
         match cv with
         | none => true
         | some v => if v.isEmpty then true else p.2 == v)

/-- `list_notes(tag, context_key, context_value)`: the filtered catalog
entries sorted by `updated` descending (Python stable sort with
`reverse=True`). -/
def list_notes (s : Store) (tag ck cv : Option Str) : List NoteMeta :=
  ((s.index.filter (passesFilters tag ck cv)).mergeSort
    (fun a b => b.updated ≤ a.updated))

/-- `search_notes(query)`: lowercase the query, keep every catalog entry
whose blob exists and whose lowercased title or content contains the
lowercased query, returning metadata together with content. -/
def search_notes (s : Store) (query : Str) : List (NoteMeta × Str) :=
  s.index.filterMap fun m =>
    match s.contents m.id with
    | none => none
    | some content =>
      if occursIn (lowerStr query) (lowerStr m.title) ||
         occursIn (lowerStr query) (lowerStr content)
      then some (m, content)
      else none

/-- One record of an export/import JSON document; `none` fields are keys
absent from the JSON object. -/
structure Record where
  id : Option Str
  title : Option Str
  content : Option Str
  created : Option Nat
  updated : Option Nat
  tags : Option (List Str)
  context : Option Ctx
deriving DecidableEq, Repr

/-- A record holds the three fields `import_notes` requires. -/
def validRecord (r : Record) : Bool :=
  r.id.isSome && r.title.isSome && r.content.isSome

/-- The export record assembled from a catalog entry and its blob. -/
def recordOfNote (n : NoteMeta) (content : Str) : Record :=
  { id := some n.id, title := some n.title, content := some content
    created := some n.created, updated := some n.updated
    tags := some n.tags, context := some n.context }

/-- `export_notes`: every catalog entry whose blob exists, serialized with
its content (entries with a missing blob are skipped). -/
def export_notes (s : Store) : List Record :=
  s.index.filterMap fun n => (s.contents n.id).map (recordOfNote n)

/-- The body of the `import_notes` loop for one record at tick `now`:
skip records missing `id`, `title` or `content` (count 0); update when the
id exists in the catalog; otherwise create an entry reusing the imported
timestamps when present (count 1 either way). -/
def importOne (s : Store) (now : Nat) (r : Record) : Store × Nat :=
  match r.id, r.title, r.content with
  | some note_id, some title, some content =>
    let tags := r.tags.getD []
    let context := r.context.getD []
    if (findNote s.index note_id).isSome then
      ((update_note s now note_id (some title) (some content)
          (some tags) (some context)).1, 1)
    else
      let meta : NoteMeta :=
        { id := note_id, title := title
          created := r.created.getD now, updated := r.updated.getD now
          tags := tags, context := context }
      ({ index := s.index ++ [meta]
         contents := blobWrite s.contents note_id content }, 1)
  | _, _, _ => (s, 0)

/-- `import_notes(import_file)` on the parsed document `doc` at tick `now`:
run the per-record step over the document left to right, returning the
final store and the count of records applied (`count += 1` per applied
record). -/
def import_notes (s : Store) (now : Nat) (doc : List Record) : Store × Nat :=
  match doc with
  | [] => (s, 0)
  | r :: rest =>
    let step := importOne s now r
    let restRes := import_notes step.1 now rest
    (restRes.1, step.2 + restRes.2)

/-- Numeric value of a decimal digit character. -/
def digitVal (c : Char) : Nat := c.toNat - 48

/-- Decode a decimal digit string back to the number it renders. -/
def decodeDigits (l : Str) : Nat := l.foldl (fun a c => 10 * a + digitVal c) 0

/-- Every catalog entry satisfies `updated ≥ created`. -/
def TimesOk (s : Store) : Prop := ∀ n ∈ s.index, n.created ≤ n.updated

/-- Every catalog entry was created no later than the clock tick `now`
(the clock never runs backwards past a stored creation time). -/
def ClockOk (s : Store) (now : Nat) : Prop := ∀ n ∈ s.index, n.created ≤ now

/-- The timestamps an imported record carries are consistent: the created
time it will store is no later than `now` and no later than the updated
time it will store. -/
def recTimesOk (r : Record) (now : Nat) : Prop :=
  r.created.getD now ≤ now ∧ r.created.getD now ≤ r.updated.getD now

/-- Ids of the records an import will actually apply. -/
def validIds (doc : List Record) : List Str :=
  doc.filterMap (fun r => if validRecord r then r.id else none)

/-- The projection of the catalog that drops only `updated`. -/
def projIndex (l : List NoteMeta) : List (Str × Str × Nat × List Str × Ctx) :=
  l.map eraseUpd

/-- After a first import, the store already carries the data of record `r`:
the first catalog entry with `r`'s id has `r`'s title and tags, a context
that absorbs `r`'s context, and `r`'s content blob. -/
def settled (s : Store) (r : Record) : Prop :=
  ∀ i ti co, r.id = some i → r.title = some ti → r.content = some co →
    ∃ n, findNote s.index i = some n ∧ n.title = ti ∧
      n.tags = r.tags.getD [] ∧
      dictUpdate n.context (r.context.getD []) = n.context ∧
      s.contents i = some co

/-- The export document assembled from the catalog `l` and the blob map
`cs0` (what `export_notes` produces for the store `⟨l, cs0⟩`). -/
def exportOf (l : List NoteMeta) (cs0 : Str → Option Str) : List Record :=
  l.filterMap fun n => (cs0 n.id).map (recordOfNote n)

/-! ### String lemmas -/

theorem leadsWith_iff (n h : Str) : leadsWith n h = true ↔ n <+: h := by
  induction n generalizing h with
  | nil => simp [leadsWith, List.nil_prefix]
  | cons a as ih =>
    cases h with
    | nil => simp [leadsWith]
    | cons b bs =>
      simp [leadsWith, List.cons_prefix_cons, ih, Bool.and_eq_true, beq_iff_eq]

theorem occursIn_iff (n h : Str) : occursIn n h = true ↔ n <:+: h := by
  induction h with
  | nil => simp [occursIn, leadsWith_iff, List.prefix_nil, List.infix_nil]
  | cons c r ih =>
    simp [occursIn, Bool.or_eq_true, leadsWith_iff, ih, List.infix_cons_iff]

theorem occursIn_nil_left (h : Str) : occursIn [] h = true := by
  cases h <;> simp [occursIn, leadsWith]

/-! ### Decimal digit lemmas (injectivity of id generation) -/

theorem digitVal_digitChar (m : Nat) (hm : m < 10) :
    digitVal (digitChar m) = m := by
  interval_cases m <;> decide

theorem decodeDigits_append_digit (l : Str) (c : Char) :
    decodeDigits (l ++ [c]) = 10 * decodeDigits l + digitVal c := by
  simp [decodeDigits, List.foldl_append]

theorem decodeDigits_natDigitsAux (fuel n : Nat) (h : n < fuel) :
    decodeDigits (natDigitsAux fuel n) = n := by
  induction fuel generalizing n with
  | zero => omega
  | succ fuel ih =>
    by_cases hn : n < 10
    · simp [natDigitsAux, hn, decodeDigits, digitVal_digitChar n hn]
    · have h10 : n / 10 < n := Nat.div_lt_self (by omega) (by omega)
      have hfuel : n / 10 < fuel := by omega
      simp only [natDigitsAux, if_neg hn]
      rw [decodeDigits_append_digit, ih _ hfuel,
        digitVal_digitChar _ (Nat.mod_lt _ (by omega))]
      omega

theorem natDigits_inj {a b : Nat} (h : natDigits a = natDigits b) : a = b := by
  have ha : decodeDigits (natDigits a) = a :=
    decodeDigits_natDigitsAux (a + 1) a (by omega)
  have hb : decodeDigits (natDigits b) = b :=
    decodeDigits_natDigitsAux (b + 1) b (by omega)
  rw [h, hb] at ha
  omega

theorem noteIdOf_inj {a b : Nat} (h : noteIdOf a = noteIdOf b) : a = b :=
  natDigits_inj (List.append_cancel_left h)

/-! ### Dict (`context`) lemmas -/

theorem owEntry_key (u : Ctx) (p : Str × Str) : (owEntry u p).1 = p.1 := by
  unfold owEntry
  cases u.find? (fun q => q.1 == p.1) <;> rfl

theorem owEntry_owEntry (u : Ctx) (p : Str × Str) :
    owEntry u (owEntry u p) = owEntry u p := by
  conv_lhs => rw [owEntry]
  rw [owEntry_key]
  cases hf : u.find? (fun q => q.1 == p.1) with
  | none => rfl
  | some q => rw [owEntry, hf]

theorem find?_self_of_nodupKeys {u : Ctx} (hu : (u.map Prod.fst).Nodup)
    {q : Str × Str} (hq : q ∈ u) : u.find? (fun p => p.1 == q.1) = some q := by
  induction u with
  | nil => cases hq
  | cons h t ih =>
    rw [List.map_cons, List.nodup_cons] at hu
    rcases List.mem_cons.mp hq with rfl | hqt
    · simp [List.find?]
    · have hne : (h.1 == q.1) = false := by
        rw [beq_eq_false_iff_ne]
        intro hkey
        exact hu.1 (hkey ▸ List.mem_map_of_mem Prod.fst hqt)
      simp only [List.find?, hne]
      exact ih hu.2 hqt

theorem owEntry_of_mem {u : Ctx} (hu : (u.map Prod.fst).Nodup)
    {q : Str × Str} (hq : q ∈ u) : owEntry u q = q := by
  rw [owEntry, find?_self_of_nodupKeys hu hq]

theorem dictUpdate_key_mem (d u : Ctx) {q : Str × Str} (hq : q ∈ u) :
    (dictUpdate d u).any (fun p => p.1 == q.1) = true := by
  rw [List.any_eq_true]
  by_cases hd : d.any (fun p => p.1 == q.1) = true
  · rw [List.any_eq_true] at hd
    obtain ⟨p, hp, hpq⟩ := hd
    refine ⟨owEntry u p, ?_, ?_⟩
    · exact List.mem_append_left _ (List.mem_map_of_mem _ hp)
    · rw [owEntry_key]; exact hpq
  · refine ⟨q, List.mem_append_right _ ?_, by simp⟩
    rw [List.mem_filter]
    exact ⟨hq, by simp [hd]⟩

theorem dictUpdate_idem (d u : Ctx) (hu : (u.map Prod.fst).Nodup) :
    dictUpdate (dictUpdate d u) u = dictUpdate d u := by
  have htail : u.filter
      (fun q => !((dictUpdate d u).any (fun p => p.1 == q.1))) = [] := by
    rw [List.filter_eq_nil_iff]
    intro q hq
    simp [dictUpdate_key_mem d u hq]
  conv_lhs => rw [dictUpdate]
  rw [htail, List.append_nil]
  conv_lhs => rw [dictUpdate]
  rw [List.map_append, List.map_map]
  have h1 : List.map (owEntry u ∘ owEntry u) d = List.map (owEntry u) d :=
    List.map_congr_left (fun p _ => owEntry_owEntry u p)
  have h2 : List.map (owEntry u)
      (u.filter (fun q => !(d.any (fun p => p.1 == q.1)))) =
      u.filter (fun q => !(d.any (fun p => p.1 == q.1))) := by
    have := List.map_congr_left (l := u.filter (fun q => !(d.any (fun p => p.1 == q.1))))
      (f := owEntry u) (g := id)
      (fun q hqf => owEntry_of_mem hu (List.mem_of_mem_filter hqf))
    rw [this, List.map_id]
  rw [h1, h2, dictUpdate]

theorem dictUpdate_nil_left (u : Ctx) : dictUpdate [] u = u := by
  simp [dictUpdate]

theorem dictUpdate_self (u : Ctx) (hu : (u.map Prod.fst).Nodup) :
    dictUpdate u u = u := by
  have h := dictUpdate_idem [] u hu
  rwa [dictUpdate_nil_left] at h

/-! ### Blob store lemmas -/

theorem blobWrite_same {cs : Str → Option Str} {i c : Str}
    (h : cs i = some c) : blobWrite cs i c = cs := by
  funext x
  by_cases hx : x = i
  · rw [blobWrite]; simp [hx, h.symm]
  · simp [blobWrite, hx]

theorem blobWrite_at (cs : Str → Option Str) (i c : Str) :
    blobWrite cs i c i = some c := by simp [blobWrite]

theorem blobWrite_other (cs : Str → Option Str) {i x : Str} (c : Str)
    (h : x ≠ i) : blobWrite cs i c x = cs x := by simp [blobWrite, h]

theorem blobDelete_at (cs : Str → Option Str) (i : Str) :
    blobDelete cs i i = none := by simp [blobDelete]

/-! ### Catalog scan lemmas -/

theorem findNote_append (l1 l2 : List NoteMeta) (i : Str) :
    findNote (l1 ++ l2) i = (findNote l1 i).or (findNote l2 i) :=
  List.find?_append

theorem findNote_id {l : List NoteMeta} {i : Str} {n : NoteMeta}
    (h : findNote l i = some n) : n.id = i := by
  have := List.find?_some h
  exact eq_of_beq this

theorem findNote_mem {l : List NoteMeta} {i : Str} {n : NoteMeta}
    (h : findNote l i = some n) : n ∈ l :=
  List.mem_of_find?_eq_some h

theorem findNote_eq_none {l : List NoteMeta} {i : Str} :
    findNote l i = none ↔ ∀ n ∈ l, n.id ≠ i := by
  rw [findNote, List.find?_eq_none]
  simp

theorem findNote_isSome_of_mem {l : List NoteMeta} {i : Str}
    (h : i ∈ l.map NoteMeta.id) : (findNote l i).isSome = true := by
  rw [findNote, List.find?_isSome]
  obtain ⟨n, hn, hid⟩ := List.mem_map.mp h
  exact ⟨n, hn, by simp [hid]⟩

theorem findNote_cons_pos {n : NoteMeta} {rest : List NoteMeta} {i : Str}
    (h : (n.id == i) = true) : findNote (n :: rest) i = some n := by
  simp only [findNote, List.find?_cons, h]

theorem findNote_cons_neg {n : NoteMeta} {rest : List NoteMeta} {i : Str}
    (h : (n.id == i) = false) : findNote (n :: rest) i = findNote rest i := by
  simp only [findNote, List.find?_cons, h]

theorem findNote_updateFirst_self {l : List NoteMeta} {i : Str}
    {f : NoteMeta → NoteMeta} {n : NoteMeta} (hf : ∀ m, (f m).id = m.id)
    (h : findNote l i = some n) :
    findNote (updateFirst l i f) i = some (f n) := by
  induction l with
  | nil => simp [findNote] at h
  | cons m rest ih =>
    by_cases hm : (m.id == i) = true
    · rw [findNote_cons_pos hm] at h
      cases h
      rw [updateFirst, if_pos hm]
      have hfm : ((f n).id == i) = true := by
        rw [beq_iff_eq] at hm ⊢
        rw [hf n, hm]
      rw [findNote_cons_pos hfm]
    · rw [Bool.not_eq_true] at hm
      rw [findNote_cons_neg hm] at h
      rw [updateFirst, if_neg (by simp [hm]), findNote_cons_neg hm]
      exact ih h

theorem findNote_updateFirst_other {l : List NoteMeta} {i j : Str}
    {f : NoteMeta → NoteMeta} (hj : j ≠ i) (hf : ∀ m, (f m).id = m.id) :
    findNote (updateFirst l i f) j = findNote l j := by
  induction l with
  | nil => rfl
  | cons m rest ih =>
    by_cases hm : (m.id == i) = true
    · rw [updateFirst, if_pos hm]
      have hmj : (m.id == j) = false := by
        rw [beq_iff_eq] at hm
        rw [beq_eq_false_iff_ne, hm]
        exact fun hc => hj hc.symm
      have hfmj : ((f m).id == j) = false := by rw [hf m]; exact hmj
      rw [findNote_cons_neg hfmj, findNote_cons_neg hmj]
    · rw [updateFirst, if_neg hm]
      by_cases hmj : (m.id == j) = true
      · rw [findNote_cons_pos hmj, findNote_cons_pos hmj]
      · rw [Bool.not_eq_true] at hmj
        rw [findNote_cons_neg hmj, findNote_cons_neg hmj]
        exact ih

theorem updateFirst_mem {l : List NoteMeta} {i : Str} {f : NoteMeta → NoteMeta}
    {m : NoteMeta} (h : m ∈ updateFirst l i f) : m ∈ l ∨ ∃ n ∈ l, m = f n := by
  induction l with
  | nil => cases h
  | cons n rest ih =>
    rw [updateFirst] at h
    by_cases hn : (n.id == i) = true
    · rw [if_pos hn] at h
      rcases List.mem_cons.mp h with rfl | hrest
      · exact Or.inr ⟨n, List.mem_cons_self n rest, rfl⟩
      · exact Or.inl (List.mem_cons_of_mem n hrest)
    · rw [if_neg hn] at h
      rcases List.mem_cons.mp h with rfl | hrest
      · exact Or.inl (List.mem_cons_self m rest)
      · rcases ih hrest with hl | ⟨n', hn', rfl⟩
        · exact Or.inl (List.mem_cons_of_mem n hl)
        · exact Or.inr ⟨n', List.mem_cons_of_mem n hn', rfl⟩

theorem removeFirst_mem {l : List NoteMeta} {i : Str} {m : NoteMeta}
    (h : m ∈ removeFirst l i) : m ∈ l := by
  induction l with
  | nil => cases h
  | cons n rest ih =>
    rw [removeFirst] at h
    by_cases hn : (n.id == i) = true
    · rw [if_pos hn] at h
      exact List.mem_cons_of_mem n h
    · rw [if_neg hn] at h
      rcases List.mem_cons.mp h with rfl | hrest
      · exact List.mem_cons_self m rest
      · exact List.mem_cons_of_mem n (ih hrest)

theorem removeFirst_ids {l : List NoteMeta} {i : Str}
    (hnd : (l.map NoteMeta.id).Nodup) : i ∉ (removeFirst l i).map NoteMeta.id := by
  induction l with
  | nil => simp [removeFirst]
  | cons n rest ih =>
    rw [List.map_cons, List.nodup_cons] at hnd
    rw [removeFirst]
    by_cases hn : (n.id == i) = true
    · rw [if_pos hn]
      rw [beq_iff_eq] at hn
      rw [← hn]
      exact hnd.1
    · rw [if_neg hn, List.map_cons]
      have hn' : n.id ≠ i := by simpa using hn
      intro hc
      rcases List.mem_cons.mp hc with heq | hmem
      · exact hn' heq.symm
      · exact ih hnd.2 hmem

/-! ### Import fold lemmas -/

theorem import_notes_nil (s : Store) (now : Nat) :
    import_notes s now [] = (s, 0) := rfl

theorem import_notes_cons (s : Store) (now : Nat) (r : Record)
    (doc : List Record) :
    import_notes s now (r :: doc) =
      ((import_notes (importOne s now r).1 now doc).1,
       (importOne s now r).2 +
         (import_notes (importOne s now r).1 now doc).2) := rfl

theorem importOne_invalid {s : Store} {now : Nat} {r : Record}
    (h : validRecord r = false) : importOne s now r = (s, 0) := by
  rw [validRecord] at h
  rw [importOne]
  cases hid : r.id with
  | none => rfl
  | some i =>
    cases hti : r.title with
    | none => rfl
    | some ti =>
      cases hco : r.content with
      | none => rfl
      | some co => simp [hid, hti, hco] at h

theorem importOne_valid_count {s : Store} {now : Nat} {r : Record}
    (h : validRecord r = true) : (importOne s now r).2 = 1 := by
  rw [validRecord] at h
  simp only [Bool.and_eq_true, Option.isSome_iff_exists] at h
  obtain ⟨⟨⟨i, hid⟩, ti, hti⟩, co, hco⟩ := h
  rw [importOne, hid, hti, hco]
  by_cases he : (findNote s.index i).isSome = true
  · simp [he]
  · simp [he]

theorem import_count (now : Nat) (doc : List Record) : ∀ s : Store,
    (import_notes s now doc).2 = (doc.filter validRecord).length := by
  induction doc with
  | nil => intro s; rfl
  | cons r doc ih =>
    intro s
    rw [import_notes_cons, List.filter_cons]
    by_cases hv : validRecord r = true
    · rw [if_pos hv, List.length_cons, importOne_valid_count hv, ih]
      omega
    · have hv' : validRecord r = false := by simpa using hv
      rw [if_neg hv, importOne_invalid hv', ih]
      simp

theorem import_skip_invalid (now : Nat) (doc : List Record) : ∀ s : Store,
    (import_notes s now doc).1 =
      (import_notes s now (doc.filter validRecord)).1 := by
  induction doc with
  | nil => intro s; rfl
  | cons r doc ih =>
    intro s
    rw [List.filter_cons]
    by_cases hv : validRecord r = true
    · rw [if_pos hv]
      show (import_notes (importOne s now r).1 now doc).1 =
        (import_notes (importOne s now r).1 now (doc.filter validRecord)).1
      exact ih _
    · have hv' : validRecord r = false := by simpa using hv
      rw [if_neg hv]
      show (import_notes (importOne s now r).1 now doc).1 = _
      rw [importOne_invalid hv']
      exact ih s

/-! ### Timestamp invariant machinery -/

theorem timesOk_add {s : Store} {now : Nat} (h : TimesOk s)
    (title content : Str) (tags : List Str) (context : Ctx) :
    TimesOk (add_note s now title content tags context).1 := by
  intro n hn
  rcases List.mem_append.mp hn with hm | hm
  · exact h n hm
  · rcases List.mem_singleton.mp hm with rfl
    exact le_refl _

theorem timesOk_update {s : Store} {now : Nat} (h : TimesOk s)
    (hc : ClockOk s now) (i : Str) (title : Option Str) (content : Option Str)
    (tags : Option (List Str)) (context : Option Ctx) :
    TimesOk (update_note s now i title content tags context).1 := by
  rw [update_note.eq_def]
  cases hf : findNote s.index i with
  | none => exact h
  | some n0 =>
    intro n hn
    rcases updateFirst_mem hn with hm | ⟨m, hm, rfl⟩
    · exact h n hm
    · exact hc m hm

theorem timesOk_delete {s : Store} (h : TimesOk s) (i : Str) :
    TimesOk (delete_note s i).1 := by
  rw [delete_note.eq_def]
  cases hf : findNote s.index i with
  | none => exact h
  | some n0 => exact fun n hn => h n (removeFirst_mem hn)

theorem clockOk_update {s : Store} {now : Nat} (hc : ClockOk s now) (i : Str)
    (title : Option Str) (content : Option Str) (tags : Option (List Str))
    (context : Option Ctx) :
    ClockOk (update_note s now i title content tags context).1 now := by
  rw [update_note.eq_def]
  cases hf : findNote s.index i with
  | none => exact hc
  | some n0 =>
    intro n hn
    rcases updateFirst_mem hn with hm | ⟨m, hm, rfl⟩
    · exact hc n hm
    · exact hc m hm

theorem timesOk_importOne {s : Store} {now : Nat} {r : Record}
    (h : TimesOk s) (hc : ClockOk s now)
    (hr : validRecord r = true → recTimesOk r now) :
    TimesOk (importOne s now r).1 ∧ ClockOk (importOne s now r).1 now := by
  rw [importOne]
  cases hid : r.id with
  | none => exact ⟨h, hc⟩
  | some i =>
    cases hti : r.title with
    | none => exact ⟨h, hc⟩
    | some ti =>
      cases hco : r.content with
      | none => exact ⟨h, hc⟩
      | some co =>
        have hrt : recTimesOk r now := by
          apply hr
          rw [validRecord, hid, hti, hco]
          rfl
        by_cases he : (findNote s.index i).isSome = true
        · simp only [if_pos he]
          exact ⟨timesOk_update h hc i _ _ _ _, clockOk_update hc i _ _ _ _⟩
        · simp only [if_neg he]
          constructor
          · intro n hn
            rcases List.mem_append.mp hn with hm | hm
            · exact h n hm
            · rcases List.mem_singleton.mp hm with rfl
              exact hrt.2
          · intro n hn
            rcases List.mem_append.mp hn with hm | hm
            · exact hc n hm
            · rcases List.mem_singleton.mp hm with rfl
              exact hrt.1

theorem timesOk_import {now : Nat} {doc : List Record} :
    ∀ {s : Store}, TimesOk s → ClockOk s now →
      (∀ r ∈ doc, validRecord r = true → recTimesOk r now) →
      TimesOk (import_notes s now doc).1 := by
  induction doc with
  | nil => intro s h _ _; exact h
  | cons r doc ih =>
    intro s h hc hr
    rw [import_notes_cons]
    have hone := timesOk_importOne h hc (hr r (List.mem_cons_self r doc))
    exact ih hone.1 hone.2 (fun r' hr' => hr r' (List.mem_cons_of_mem r hr'))

/-! ### Machinery for the double-import analysis -/

theorem applyUpdate_id (now : Nat) (title : Option Str)
    (tags : Option (List Str)) (context : Option Ctx) (n : NoteMeta) :
    (applyUpdate now title tags context n).id = n.id := rfl

theorem settled_of_invalid {t : Store} {r : Record}
    (h : validRecord r = false) : settled t r := by
  intro i ti co hid hti hco
  rw [validRecord, hid, hti, hco] at h
  simp at h

theorem validIds_cons_invalid {r : Record} {doc : List Record}
    (h : validRecord r = false) : validIds (r :: doc) = validIds doc := by
  rw [validIds, List.filterMap_cons]
  simp [h, validIds]

theorem validIds_cons_valid {r : Record} {doc : List Record} {i : Str}
    (h : validRecord r = true) (hid : r.id = some i) :
    validIds (r :: doc) = i :: validIds doc := by
  rw [validIds, List.filterMap_cons]
  simp [h, hid, validIds]

theorem mem_validIds {doc : List Record} {r : Record} {i : Str}
    (hr : r ∈ doc) (hv : validRecord r = true) (hid : r.id = some i) :
    i ∈ validIds doc := by
  rw [validIds, List.mem_filterMap]
  exact ⟨r, hr, by simp [hv, hid]⟩

theorem update_note_found_some {s : Store} {now : Nat} {i : Str}
    {n0 : NoteMeta} {title : Option Str} {co : Str}
    {tags : Option (List Str)} {context : Option Ctx}
    (h : findNote s.index i = some n0) :
    update_note s now i title (some co) tags context =
      ({ index := updateFirst s.index i (applyUpdate now title tags context)
         contents := blobWrite s.contents i co }, true) := by
  rw [update_note.eq_def, h]

theorem importOne_valid_eq {s : Store} {now : Nat} {r : Record}
    {i ti co : Str} (hid : r.id = some i) (hti : r.title = some ti)
    (hco : r.content = some co) :
    importOne s now r =
      if (findNote s.index i).isSome then
        ((update_note s now i (some ti) (some co) (some (r.tags.getD []))
            (some (r.context.getD []))).1, 1)
      else
        ({ index := s.index ++
             [{ id := i, title := ti, created := r.created.getD now
                updated := r.updated.getD now, tags := r.tags.getD []
                context := r.context.getD [] }]
           contents := blobWrite s.contents i co }, 1) := by
  rw [importOne, hid, hti, hco]

theorem projIndex_updateFirst {l : List NoteMeta} {i : Str}
    {f : NoteMeta → NoteMeta} {n : NoteMeta} (h : findNote l i = some n)
    (hfn : eraseUpd (f n) = eraseUpd n) :
    projIndex (updateFirst l i f) = projIndex l := by
  induction l with
  | nil => simp [findNote] at h
  | cons m rest ih =>
    by_cases hm : (m.id == i) = true
    · rw [findNote_cons_pos hm] at h
      cases h
      rw [updateFirst, if_pos hm]
      simp only [projIndex, List.map_cons, hfn]
    · rw [Bool.not_eq_true] at hm
      rw [findNote_cons_neg hm] at h
      rw [updateFirst, if_neg (by simp [hm])]
      simp only [projIndex, List.map_cons]
      rw [show List.map eraseUpd (updateFirst rest i f) =
        projIndex (updateFirst rest i f) from rfl, ih h]
      rfl

theorem settled_importOne_other {t : Store} {now : Nat} {r r' : Record}
    {i : Str} (hid : r.id = some i) (hs : settled t r)
    (hne : validRecord r' = true → r'.id ≠ some i) :
    settled (importOne t now r').1 r := by
  by_cases hv : validRecord r' = true
  · rw [validRecord] at hv
    simp only [Bool.and_eq_true, Option.isSome_iff_exists] at hv
    obtain ⟨⟨⟨i', hid'⟩, ti', hti'⟩, co', hco'⟩ := hv
    have hii : i' ≠ i := by
      intro hc
      exact hne (by rw [validRecord, hid', hti', hco']; rfl) (by rw [hid', hc])
    rw [importOne_valid_eq hid' hti' hco']
    intro j tj cj hjid hjti hjco
    obtain ⟨n, hn, hnti, hntg, hnctx, hnco⟩ := hs j tj cj hjid hjti hjco
    have hji : j = i := by rw [hid] at hjid; exact (Option.some.inj hjid).symm ▸ rfl
    subst hji
    by_cases he : (findNote t.index i').isSome = true
    · rw [if_pos he]
      obtain ⟨n0, hn0⟩ := Option.isSome_iff_exists.mp he
      rw [update_note_found_some hn0]
      refine ⟨n, ?_, hnti, hntg, hnctx, ?_⟩
      · exact (findNote_updateFirst_other (fun hc => hii hc.symm)
          (fun m => applyUpdate_id _ _ _ _ m)).trans hn
      · exact (blobWrite_other t.contents co' (fun hc => hii hc.symm)).trans hnco
    · rw [if_neg he]
      refine ⟨n, ?_, hnti, hntg, hnctx, ?_⟩
      · show findNote (t.index ++ [_]) _ = some n
        rw [findNote_append, hn]
        rfl
      · exact (blobWrite_other t.contents co' (fun hc => hii hc.symm)).trans hnco
  · rw [importOne_invalid (by simpa using hv)]
    exact hs

theorem settled_import_other {now : Nat} {doc : List Record} :
    ∀ {t : Store} {r : Record} {i : Str}, r.id = some i → settled t r →
      (∀ r' ∈ doc, validRecord r' = true → r'.id ≠ some i) →
      settled (import_notes t now doc).1 r := by
  induction doc with
  | nil => intro t r i _ hs _; exact hs
  | cons r' doc ih =>
    intro t r i hid hs hne
    rw [import_notes_cons]
    exact ih hid
      (settled_importOne_other hid hs (hne r' (List.mem_cons_self r' doc)))
      (fun r'' hr'' => hne r'' (List.mem_cons_of_mem r' hr''))

theorem import_settles {now : Nat} {doc : List Record} :
    ∀ {s : Store}, (validIds doc).Nodup →
      (∀ r ∈ doc, validRecord r = true →
        ((r.context.getD []).map Prod.fst).Nodup) →
      ∀ r ∈ doc, settled (import_notes s now doc).1 r := by
  induction doc with
  | nil => intro s _ _ r hr; cases hr
  | cons r' doc ih =>
    intro s hnd hctx r hr
    rw [import_notes_cons]
    by_cases hv : validRecord r' = true
    · have hv2 := hv
      rw [validRecord] at hv2
      simp only [Bool.and_eq_true, Option.isSome_iff_exists] at hv2
      obtain ⟨⟨⟨i', hid'⟩, ti', hti'⟩, co', hco'⟩ := hv2
      rw [validIds_cons_valid hv hid', List.nodup_cons] at hnd
      have hne : ∀ r'' ∈ doc, validRecord r'' = true → r''.id ≠ some i' :=
        fun r'' h'' hv'' hcid => hnd.1 (mem_validIds h'' hv'' hcid)
      have hset1 : settled (importOne s now r').1 r' := by
        rw [importOne_valid_eq hid' hti' hco']
        by_cases he : (findNote s.index i').isSome = true
        · rw [if_pos he]
          obtain ⟨n0, hn0⟩ := Option.isSome_iff_exists.mp he
          rw [update_note_found_some hn0]
          intro j tj cj hjid hjti hjco
          rw [hid'] at hjid
          rw [hti'] at hjti
          rw [hco'] at hjco
          cases Option.some.inj hjid
          cases Option.some.inj hjti
          cases Option.some.inj hjco
          refine ⟨applyUpdate now (some ti') (some (r'.tags.getD []))
            (some (r'.context.getD [])) n0, ?_, rfl, rfl, ?_, ?_⟩
          · exact findNote_updateFirst_self
              (fun m => applyUpdate_id _ _ _ _ m) hn0
          · show dictUpdate (dictUpdate n0.context (r'.context.getD []))
              (r'.context.getD []) = dictUpdate n0.context (r'.context.getD [])
            exact dictUpdate_idem _ _
              (hctx r' (List.mem_cons_self r' doc) hv)
          · exact blobWrite_at s.contents i' co'
        · rw [if_neg he]
          intro j tj cj hjid hjti hjco
          rw [hid'] at hjid
          rw [hti'] at hjti
          rw [hco'] at hjco
          cases Option.some.inj hjid
          cases Option.some.inj hjti
          cases Option.some.inj hjco
          have hnone : findNote s.index i' = none :=
            Option.not_isSome_iff_eq_none.mp (by simpa using he)
          refine ⟨⟨i', ti', r'.created.getD now, r'.updated.getD now,
            r'.tags.getD [], r'.context.getD []⟩, ?_, rfl, rfl, ?_, ?_⟩
          · show findNote (s.index ++ [_]) i' = _
            rw [findNote_append, hnone]
            exact findNote_cons_pos (by simp)
          · show dictUpdate (r'.context.getD []) (r'.context.getD []) = _
            exact dictUpdate_self _ (hctx r' (List.mem_cons_self r' doc) hv)
          · exact blobWrite_at s.contents i' co'
      rcases List.mem_cons.mp hr with rfl | hrd
      · exact settled_import_other hid' hset1 hne
      · exact ih hnd.2
          (fun r'' h'' hv'' => hctx r'' (List.mem_cons_of_mem r' h'') hv'')
          r hrd
    · have hv' : validRecord r' = false := by simpa using hv
      rw [importOne_invalid hv']
      rcases List.mem_cons.mp hr with rfl | hrd
      · exact settled_of_invalid hv'
      · exact ih (by rwa [validIds_cons_invalid hv'] at hnd)
          (fun r'' h'' hv'' => hctx r'' (List.mem_cons_of_mem r' h'') hv'')
          r hrd

theorem import_preserves_proj {now : Nat} {doc : List Record} :
    ∀ {t : Store}, (∀ r ∈ doc, settled t r) →
      projIndex (import_notes t now doc).1.index = projIndex t.index ∧
      (import_notes t now doc).1.contents = t.contents := by
  induction doc with
  | nil => intro t _; exact ⟨rfl, rfl⟩
  | cons r doc ih =>
    intro t hset
    rw [import_notes_cons]
    by_cases hv : validRecord r = true
    · have hv2 := hv
      rw [validRecord] at hv2
      simp only [Bool.and_eq_true, Option.isSome_iff_exists] at hv2
      obtain ⟨⟨⟨i, hid⟩, ti, hti⟩, co, hco⟩ := hv2
      obtain ⟨n, hn, hnti, hntg, hnctx, hnco⟩ :=
        hset r (List.mem_cons_self r doc) i ti co hid hti hco
      rw [importOne_valid_eq hid hti hco, if_pos (by rw [hn]; rfl),
        update_note_found_some hn]
      have hfn : eraseUpd (applyUpdate now (some ti) (some (r.tags.getD []))
          (some (r.context.getD [])) n) = eraseUpd n := by
        simp only [eraseUpd, applyUpdate, Option.getD_some]
        rw [hnctx, hnti, hntg]
      have hproj1 : projIndex (updateFirst t.index i
          (applyUpdate now (some ti) (some (r.tags.getD []))
            (some (r.context.getD [])))) = projIndex t.index :=
        projIndex_updateFirst hn hfn
      have hcont1 : blobWrite t.contents i co = t.contents :=
        blobWrite_same hnco
      have hset1 : ∀ r' ∈ doc, settled
          (⟨updateFirst t.index i (applyUpdate now (some ti)
              (some (r.tags.getD [])) (some (r.context.getD [])))
            , blobWrite t.contents i co⟩ : Store) r' := by
        intro r' hr' j tj cj hjid hjti hjco
        obtain ⟨n', hn', hnti', hntg', hnctx', hnco'⟩ :=
          hset r' (List.mem_cons_of_mem r hr') j tj cj hjid hjti hjco
        by_cases hji : j = i
        · subst hji
          have hnn : n' = n := by
            rw [hn] at hn'
            exact (Option.some.inj hn').symm
          subst hnn
          refine ⟨applyUpdate now (some ti) (some (r.tags.getD []))
            (some (r.context.getD [])) n', ?_, ?_, ?_, ?_, ?_⟩
          · exact findNote_updateFirst_self
              (fun m => applyUpdate_id _ _ _ _ m) hn
          · show ti = tj
            rw [← hnti, hnti']
          · show r.tags.getD [] = r'.tags.getD []
            rw [← hntg, hntg']
          · show dictUpdate (dictUpdate n'.context (r.context.getD []))
              (r'.context.getD []) = dictUpdate n'.context (r.context.getD [])
            rw [hnctx]
            exact hnctx'
          · show blobWrite t.contents j co j = some cj
            rw [hcont1]
            exact hnco'
        · refine ⟨n', ?_, hnti', hntg', hnctx', ?_⟩
          · exact (findNote_updateFirst_other hji
              (fun m => applyUpdate_id _ _ _ _ m)).trans hn'
          · show blobWrite t.contents i co j = some cj
            rw [hcont1]
            exact hnco'
      obtain ⟨hp, hc⟩ := ih hset1
      exact ⟨hp.trans hproj1, hc.trans hcont1⟩
    · have hv' : validRecord r = false := by simpa using hv
      rw [importOne_invalid hv']
      exact ih (fun r' hr' => hset r' (List.mem_cons_of_mem r hr'))

/-! ### Export/import round trip machinery -/

theorem export_notes_eq (s : Store) :
    export_notes s = exportOf s.index s.contents := rfl

theorem import_export_aux (now : Nat) (cs0 : Str → Option Str) :
    ∀ (l : List NoteMeta) (t : Store),
      (∀ n ∈ l, (cs0 n.id).isSome = true) →
      (l.map NoteMeta.id).Nodup →
      (∀ n ∈ l, findNote t.index n.id = none) →
      (import_notes t now (exportOf l cs0)).1.index = t.index ++ l ∧
      (∀ n ∈ l,
        (import_notes t now (exportOf l cs0)).1.contents n.id = cs0 n.id) ∧
      (∀ x : Str, (∀ n ∈ l, x ≠ n.id) →
        (import_notes t now (exportOf l cs0)).1.contents x = t.contents x) := by
  intro l
  induction l with
  | nil =>
    intro t _ _ _
    refine ⟨?_, ?_, ?_⟩
    · rw [List.append_nil]; rfl
    · intro n hn; cases hn
    · intro x _; rfl
  | cons n l ih =>
    intro t hwf hnd habs
    obtain ⟨c, hc⟩ :=
      Option.isSome_iff_exists.mp (hwf n (List.mem_cons_self n l))
    rw [List.map_cons, List.nodup_cons] at hnd
    have hexp : exportOf (n :: l) cs0 = recordOfNote n c :: exportOf l cs0 := by
      rw [exportOf, List.filterMap_cons, hc]
      rfl
    have hstep : importOne t now (recordOfNote n c) =
        ({ index := t.index ++ [n], contents := blobWrite t.contents n.id c },
         1) := by
      rw [@importOne_valid_eq t now (recordOfNote n c) n.id n.title c rfl rfl rfl]
      rw [habs n (List.mem_cons_self n l)]
      rfl
    have habs' : ∀ m ∈ l, findNote (t.index ++ [n]) m.id = none := by
      intro m hm
      rw [findNote_append, habs m (List.mem_cons_of_mem n hm)]
      have hne : (n.id == m.id) = false := by
        rw [beq_eq_false_iff_ne]
        intro hc'
        exact hnd.1 (hc' ▸ List.mem_map_of_mem NoteMeta.id hm)
      rw [findNote_cons_neg hne]
      rfl
    have hihres := ih ⟨t.index ++ [n], blobWrite t.contents n.id c⟩
      (fun m hm => hwf m (List.mem_cons_of_mem n hm)) hnd.2 habs'
    rw [hexp, import_notes_cons, hstep]
    refine ⟨?_, ?_, ?_⟩
    · rw [hihres.1]
      show t.index ++ [n] ++ l = _
      rw [List.append_assoc]
      rfl
    · intro m hm
      rcases List.mem_cons.mp hm with rfl | hml
      · have hnotin : ∀ m' ∈ l, m.id ≠ m'.id := by
          intro m' hm' hcid
          exact hnd.1 (hcid ▸ List.mem_map_of_mem NoteMeta.id hm')
        rw [hihres.2.2 m.id hnotin]
        show blobWrite t.contents m.id c m.id = cs0 m.id
        rw [blobWrite_at, hc]
      · exact hihres.2.1 m hml
    · intro x hx
      rw [hihres.2.2 x (fun m hm => hx m (List.mem_cons_of_mem n hm))]
      show blobWrite t.contents n.id c x = t.contents x
      exact blobWrite_other t.contents c (hx n (List.mem_cons_self n l))

/-! ### Claim theorems -/

/-- Claim C4: `search_notes(q)` returns a catalog entry (with its content)
iff the lowercased query occurs as a substring of the lowercased title or
of the lowercased content of its existing blob — case-insensitive substring
match over title OR content, with content included in the result. -/
theorem C4_search_correct (s : Store) (q : Str) (n : NoteMeta) (c : Str) :
    (n, c) ∈ search_notes s q ↔
      n ∈ s.index ∧ s.contents n.id = some c ∧
        (lowerStr q <:+: lowerStr n.title ∨ lowerStr q <:+: lowerStr c) := by
  rw [search_notes]
  rw [List.mem_filterMap]
  constructor
  · rintro ⟨m, hm, hf⟩
    split at hf
    · cases hf
    · rename_i ct hcm
      split at hf
      · rename_i hocc
        have hmn : m = n := congrArg Prod.fst (Option.some.inj hf)
        have hctc : ct = c := congrArg Prod.snd (Option.some.inj hf)
        subst hmn
        subst hctc
        refine ⟨hm, hcm, ?_⟩
        have hocc2 := hocc
        rw [Bool.or_eq_true] at hocc2
        rcases hocc2 with h1 | h1
        · exact Or.inl ((occursIn_iff _ _).mp h1)
        · exact Or.inr ((occursIn_iff _ _).mp h1)
      · cases hf
  · rintro ⟨hmem, hc, hor⟩
    refine ⟨n, hmem, ?_⟩
    rw [hc]
    have hocc : (occursIn (lowerStr q) (lowerStr n.title) ||
        occursIn (lowerStr q) (lowerStr c)) = true := by
      rw [Bool.or_eq_true]
      rcases hor with h | h
      · exact Or.inl ((occursIn_iff _ _).mpr h)
      · exact Or.inr ((occursIn_iff _ _).mpr h)
    show (if (occursIn (lowerStr q) (lowerStr n.title) ||
        occursIn (lowerStr q) (lowerStr c)) = true
      then some (n, c) else none) = some (n, c)
    rw [if_pos hocc]

/-- Claim C7: for every store and every combination of the optional
tag/context filters, `list_notes` returns exactly the catalog entries
passing the filters (as a permutation) sorted by `updated` descending. -/
theorem C7_list_sorted_by_updated_desc (s : Store) (tag ck cv : Option Str) :
    (list_notes s tag ck cv).Perm
      (s.index.filter (passesFilters tag ck cv)) ∧
    (list_notes s tag ck cv).Pairwise
      (fun a b => b.updated ≤ a.updated) := by
  rw [list_notes]
  constructor
  · exact List.mergeSort_perm _ _
  · refine List.Pairwise.imp ?_
      (List.sorted_mergeSort ?_ ?_ (s.index.filter (passesFilters tag ck cv)))
    · intro a b h
      exact of_decide_eq_true h
    · intro a b c hab hbc
      rw [decide_eq_true_eq] at hab hbc ⊢
      omega
    · intro a b
      rw [Bool.or_eq_true, decide_eq_true_eq, decide_eq_true_eq]
      omega

/-- Claim C9: `import_notes` skips every record missing `id`, `title` or
`content` without touching the store, continues with the remaining
records, and its returned count equals exactly the number of records
actually applied (the records carrying all three required fields). -/
theorem C9_import_skips_malformed (s : Store) (now : Nat)
    (doc : List Record) :
    (import_notes s now doc).2 = (doc.filter validRecord).length ∧
    (import_notes s now doc).1 =
      (import_notes s now (doc.filter validRecord)).1 :=
  ⟨import_count now doc s, import_skip_invalid now doc s⟩

/-- Claim C10: searching with the empty query is accepted and returns
exactly the catalog entries whose content blob exists, each with its
content (the empty string is a substring of every title and content). -/
theorem C10_search_empty_query (s : Store) :
    search_notes s [] =
      s.index.filterMap (fun m => (s.contents m.id).map (fun c => (m, c))) := by
  rw [search_notes]
  refine congrArg (fun f => List.filterMap f s.index) (funext fun m => ?_)
  cases hcm : s.contents m.id with
  | none => rfl
  | some ct =>
    have hnil : lowerStr [] = [] := rfl
    simp [hnil, occursIn_nil_left]

/-- Claim C2 counterexample: two `add_note` calls issued at the same
millisecond tick (here tick 5) return the same id, and the catalog then
holds a duplicate id — repeated adds in rapid succession can collide. -/
theorem C2_counterexample :
    (add_note (add_note emptyStore 5 ['a'] ['x'] [] []).1
        5 ['b'] ['y'] [] []).2 =
      (add_note emptyStore 5 ['a'] ['x'] [] []).2 ∧
    ¬ ((add_note (add_note emptyStore 5 ['a'] ['x'] [] []).1
        5 ['b'] ['y'] [] []).1.index.map NoteMeta.id).Nodup := by
  constructor
  · rfl
  · decide

/-- Claim C2 amended: `add_note` calls at distinct id-generation ticks
(distinct values of `int(time.time()*1000)`) return distinct ids; only
calls within the same millisecond tick collide. -/
theorem C2_add_distinct_ticks_distinct_ids (s1 s2 : Store) (now1 now2 : Nat)
    (h : now1 ≠ now2) (t1 c1 t2 c2 : Str) (tg1 tg2 : List Str)
    (cx1 cx2 : Ctx) :
    (add_note s1 now1 t1 c1 tg1 cx1).2 ≠ (add_note s2 now2 t2 c2 tg2 cx2).2 :=
  fun hc => h (noteIdOf_inj hc)

/-- Claim C2 witness: the amended theorem at ticks 1 and 2. -/
theorem C2_witness :
    (1 : Nat) ≠ 2 ∧
    (add_note emptyStore 1 ['a'] ['x'] [] []).2 ≠
      (add_note emptyStore 2 ['a'] ['x'] [] []).2 :=
  ⟨by decide, C2_add_distinct_ticks_distinct_ids emptyStore emptyStore 1 2
    (by decide) ['a'] ['x'] ['a'] ['x'] [] [] [] []⟩

/-- Claim C3 counterexample: importing a record that carries
`created = 10` and `updated = 5` into an empty store at tick 1 leaves a
catalog entry with `updated < created` — the invariant fails after such an
operation because imported timestamps are reused unvalidated. -/
theorem C3_counterexample :
    ∃ n ∈ (import_notes emptyStore 1
      [⟨some ['a'], some ['t'], some ['c'], some 10, some 5,
        some [], some []⟩]).1.index, n.updated < n.created := by
  decide

/-- Claim C3 amended: `updated ≥ created` is preserved by every
operation — `add_note` and `delete_note` unconditionally, `update_note`
under a monotone clock (no stored `created` lies in the future), and
`import_notes` additionally provided each applied record's timestamps are
consistent (its effective `created` is at most `now` and at most its
effective `updated`); an imported record violating that breaks the
invariant, as the counterexample shows. -/
theorem C3_timestamp_invariant (s : Store) (now : Nat) :
    (TimesOk s → ∀ title content tags context,
      TimesOk (add_note s now title content tags context).1) ∧
    (TimesOk s → ClockOk s now → ∀ i title content tags context,
      TimesOk (update_note s now i title content tags context).1) ∧
    (TimesOk s → ∀ i, TimesOk (delete_note s i).1) ∧
    (TimesOk s → ClockOk s now →
      ∀ doc, (∀ r ∈ doc, validRecord r = true → recTimesOk r now) →
        TimesOk (import_notes s now doc).1) :=
  ⟨fun h title content tags context => timesOk_add h title content tags context,
   fun h hc i title content tags context =>
     timesOk_update h hc i title content tags context,
   fun h i => timesOk_delete h i,
   fun h hc _ hr => timesOk_import h hc hr⟩

/-- Claim C3 witness: the amended theorem on a concrete one-note store at
tick 7, exercising all four operations. -/
theorem C3_witness :
    TimesOk ⟨[⟨['a'], ['t'], 2, 3, [], []⟩],
      fun x => if x = ['a'] then some ['c'] else none⟩ ∧
    TimesOk (update_note ⟨[⟨['a'], ['t'], 2, 3, [], []⟩],
      fun x => if x = ['a'] then some ['c'] else none⟩ 7 ['a']
        (some ['u']) none none none).1 ∧
    TimesOk (import_notes ⟨[⟨['a'], ['t'], 2, 3, [], []⟩],
      fun x => if x = ['a'] then some ['c'] else none⟩ 7
        [⟨some ['b'], some ['s'], some ['d'], some 4, some 6,
          some [], some []⟩]).1 := by
  have h1 : TimesOk ⟨[⟨['a'], ['t'], 2, 3, [], []⟩],
      fun x => if x = ['a'] then some ['c'] else none⟩ := by
    unfold TimesOk
    decide
  have h2 : ClockOk ⟨[⟨['a'], ['t'], 2, 3, [], []⟩],
      fun x => if x = ['a'] then some ['c'] else none⟩ 7 := by
    unfold ClockOk
    decide
  refine ⟨h1, ?_, ?_⟩
  · exact (C3_timestamp_invariant _ 7).2.1 h1 h2 ['a']
      (some ['u']) none none none
  · refine (C3_timestamp_invariant _ 7).2.2.2 h1 h2 _ ?_
    intro r hr _
    have hreq := List.mem_singleton.mp hr
    subst hreq
    exact ⟨by decide, by decide⟩

/-- Claim C5 counterexample: importing a record whose id `a` already
exists does not make the stored context equal the imported context — the
existing key `k` survives the import, so the context is merged, not fully
overwritten. -/
theorem C5_counterexample :
    (import_notes
      ⟨[⟨['a'], ['t'], 0, 0, [], [(['k'], ['v'])]⟩],
        fun x => if x = ['a'] then some ['c'] else none⟩ 7
      [⟨some ['a'], some ['T'], some ['C'], none, none,
        some [], some [(['K'], ['V'])]⟩]).1.index =
      [⟨['a'], ['T'], 0, 7, [], [(['k'], ['v']), (['K'], ['V'])]⟩] ∧
    ([(['k'], ['v']), (['K'], ['V'])] : Ctx) ≠ [(['K'], ['V'])] := by
  constructor
  · decide
  · decide

/-- Claim C5 amended: importing a record whose id already exists
overwrites the note's title and tags, replaces the content blob, keeps
`created`, refreshes `updated` to the import time, and merges the imported
context into the existing one (`dict.update`) rather than replacing it. -/
theorem C5_import_existing_merges (s : Store) (now : Nat) (r : Record)
    (i ti co : Str) (hid : r.id = some i) (hti : r.title = some ti)
    (hco : r.content = some co) (n0 : NoteMeta)
    (hfind : findNote s.index i = some n0) :
    findNote (import_notes s now [r]).1.index i =
      some ⟨n0.id, ti, n0.created, now, r.tags.getD [],
        dictUpdate n0.context (r.context.getD [])⟩ ∧
    (import_notes s now [r]).1.contents i = some co := by
  have hcons : import_notes s now [r] =
      ((importOne s now r).1, (importOne s now r).2 + 0) := rfl
  rw [hcons]
  rw [importOne_valid_eq hid hti hco, if_pos (by rw [hfind]; rfl),
    update_note_found_some hfind]
  constructor
  · exact findNote_updateFirst_self (fun m => applyUpdate_id _ _ _ _ m) hfind
  · exact blobWrite_at s.contents i co

/-- Claim C5 witness: the amended theorem on the concrete store and record
of the counterexample. -/
theorem C5_witness :
    findNote (import_notes
      ⟨[⟨['a'], ['t'], 0, 0, [], [(['k'], ['v'])]⟩],
        fun x => if x = ['a'] then some ['c'] else none⟩ 7
      [⟨some ['a'], some ['T'], some ['C'], none, none,
        some [], some [(['K'], ['V'])]⟩]).1.index ['a'] =
      some ⟨['a'], ['T'], 0, 7, [],
        dictUpdate [(['k'], ['v'])] [(['K'], ['V'])]⟩ ∧
    (import_notes
      ⟨[⟨['a'], ['t'], 0, 0, [], [(['k'], ['v'])]⟩],
        fun x => if x = ['a'] then some ['c'] else none⟩ 7
      [⟨some ['a'], some ['T'], some ['C'], none, none,
        some [], some [(['K'], ['V'])]⟩]).1.contents ['a'] = some ['C'] :=
  C5_import_existing_merges _ 7 _ ['a'] ['T'] ['C'] rfl rfl rfl
    ⟨['a'], ['t'], 0, 0, [], [(['k'], ['v'])]⟩ (by decide)

/-- Claim C8: for an id present in a duplicate-free catalog, `delete_note`
reports success, `get_note` then returns `None`, the id appears in no
`list_notes` result under any filters, and both the catalog entry and the
content blob are removed. -/
theorem C8_delete_complete (s : Store) (i : Str)
    (hnd : (s.index.map NoteMeta.id).Nodup)
    (hmem : i ∈ s.index.map NoteMeta.id) :
    (delete_note s i).2 = true ∧
    get_note (delete_note s i).1 i = none ∧
    (∀ tag ck cv,
      i ∉ (list_notes (delete_note s i).1 tag ck cv).map NoteMeta.id) ∧
    i ∉ ((delete_note s i).1.index.map NoteMeta.id) ∧
    (delete_note s i).1.contents i = none := by
  obtain ⟨n0, hn0⟩ :=
    Option.isSome_iff_exists.mp (findNote_isSome_of_mem hmem)
  have hdel : delete_note s i =
      (⟨removeFirst s.index i, blobDelete s.contents i⟩, true) := by
    rw [delete_note.eq_def, hn0]
  rw [hdel]
  have hids : i ∉ (removeFirst s.index i).map NoteMeta.id :=
    removeFirst_ids hnd
  have hfindnone : findNote (removeFirst s.index i) i = none := by
    rw [findNote_eq_none]
    intro n hn hni
    subst hni
    exact hids (List.mem_map_of_mem NoteMeta.id hn)
  refine ⟨rfl, ?_, ?_, hids, ?_⟩
  · rw [get_note.eq_def]
    show (match findNote (removeFirst s.index i) i with
      | none => none
      | some meta => match blobDelete s.contents i i with
        | none => none
        | some content => some (meta, content)) = none
    rw [hfindnone]
  · intro tag ck cv hmem'
    obtain ⟨n, hn, hni⟩ := List.mem_map.mp hmem'
    rw [list_notes] at hn
    have hn2 := (List.mergeSort_perm _ _).mem_iff.mp hn
    have hn3 : n ∈ removeFirst s.index i := (List.mem_filter.mp hn2).1
    subst hni
    exact hids (List.mem_map_of_mem NoteMeta.id hn3)
  · exact blobDelete_at s.contents i

/-- Claim C8 witness: the theorem on a concrete one-note store. -/
theorem C8_witness :
    ((([⟨['a'], ['t'], 0, 0, [], []⟩] : List NoteMeta).map
        NoteMeta.id).Nodup ∧
      ['a'] ∈ ([⟨['a'], ['t'], 0, 0, [], []⟩] : List NoteMeta).map
        NoteMeta.id) ∧
    get_note (delete_note ⟨[⟨['a'], ['t'], 0, 0, [], []⟩],
      fun x => if x = ['a'] then some ['c'] else none⟩ ['a']).1 ['a'] =
      none :=
  ⟨⟨by decide, by decide⟩,
    (C8_delete_complete ⟨[⟨['a'], ['t'], 0, 0, [], []⟩],
      fun x => if x = ['a'] then some ['c'] else none⟩ ['a']
      (by decide) (by decide)).2.1⟩

/-- Claim C6: exporting a store whose catalog has no duplicate ids and
whose every entry has its content blob, then importing the document into
an empty store, reproduces the catalog exactly (every field, timestamps
included) and reproduces every note's content blob. -/
theorem C6_export_import_round_trip (s : Store) (now : Nat)
    (hnd : (s.index.map NoteMeta.id).Nodup)
    (hwf : ∀ n ∈ s.index, (s.contents n.id).isSome = true) :
    (import_notes emptyStore now (export_notes s)).1.index = s.index ∧
    (∀ n ∈ s.index,
      (import_notes emptyStore now (export_notes s)).1.contents n.id =
        s.contents n.id) := by
  have haux := import_export_aux now s.contents s.index emptyStore hwf hnd
    (fun n _ => rfl)
  rw [export_notes_eq]
  constructor
  · rw [haux.1]
    rfl
  · exact haux.2.1

/-- Claim C6 witness: the round trip on a concrete two-note store. -/
theorem C6_witness :
    (import_notes emptyStore 9 (export_notes
      ⟨[⟨['a'], ['t'], 1, 2, [['x']], [(['k'], ['v'])]⟩,
        ⟨['b'], ['u'], 3, 4, [], []⟩],
        fun x => if x = ['a'] then some ['c']
          else if x = ['b'] then some ['d'] else none⟩)).1.index =
      [⟨['a'], ['t'], 1, 2, [['x']], [(['k'], ['v'])]⟩,
        ⟨['b'], ['u'], 3, 4, [], []⟩] :=
  (C6_export_import_round_trip
    ⟨[⟨['a'], ['t'], 1, 2, [['x']], [(['k'], ['v'])]⟩,
      ⟨['b'], ['u'], 3, 4, [], []⟩],
      fun x => if x = ['a'] then some ['c']
        else if x = ['b'] then some ['d'] else none⟩ 9
    (by decide) (by decide)).1

/-- Claim C1 counterexample: importing the same one-record document twice
(the record carries `updated = 5`) changes the store: the second import
refreshes the note's `updated` timestamp to the import time, so the state
after the second import differs from the state after the first. -/
theorem C1_counterexample :
    ((import_notes (import_notes emptyStore 1
        [⟨some ['a'], some ['t'], some ['c'], some 1, some 5,
          some [], some []⟩]).1 1
        [⟨some ['a'], some ['t'], some ['c'], some 1, some 5,
          some [], some []⟩]).1.index.map NoteMeta.updated) ≠
      ((import_notes emptyStore 1
        [⟨some ['a'], some ['t'], some ['c'], some 1, some 5,
          some [], some []⟩]).1.index.map NoteMeta.updated) := by
  decide

/-- Claim C1 amended: importing the same document twice (the applied
records carrying pairwise distinct ids and duplicate-free context keys) is
idempotent except for timestamps: the second import leaves the note
count, the content blobs, the applied count, and every catalog field other
than `updated` unchanged; only the `updated` timestamps of the applied
notes may change (they are refreshed to the second import's time). -/
theorem C1_import_twice_idempotent_except_updated (s : Store)
    (now1 now2 : Nat) (doc : List Record)
    (hnd : (validIds doc).Nodup)
    (hctx : ∀ r ∈ doc, validRecord r = true →
      ((r.context.getD []).map Prod.fst).Nodup) :
    projIndex (import_notes (import_notes s now1 doc).1 now2 doc).1.index =
      projIndex (import_notes s now1 doc).1.index ∧
    (import_notes (import_notes s now1 doc).1 now2 doc).1.contents =
      (import_notes s now1 doc).1.contents ∧
    (import_notes (import_notes s now1 doc).1 now2 doc).2 =
      (import_notes s now1 doc).2 := by
  have hset : ∀ r ∈ doc, settled (import_notes s now1 doc).1 r :=
    import_settles hnd hctx
  have hpre := @import_preserves_proj now2 doc (import_notes s now1 doc).1 hset
  refine ⟨hpre.1, hpre.2, ?_⟩
  rw [import_count, import_count]

/-- Claim C1 witness: the amended theorem on the counterexample's
one-record document imported into the empty store at ticks 1 and 2. -/
theorem C1_witness :
    (validIds [⟨some ['a'], some ['t'], some ['c'], some 1, some 5,
        some [], some []⟩]).Nodup ∧
    projIndex (import_notes (import_notes emptyStore 1
        [⟨some ['a'], some ['t'], some ['c'], some 1, some 5,
          some [], some []⟩]).1 2
        [⟨some ['a'], some ['t'], some ['c'], some 1, some 5,
          some [], some []⟩]).1.index =
      projIndex (import_notes emptyStore 1
        [⟨some ['a'], some ['t'], some ['c'], some 1, some 5,
          some [], some []⟩]).1.index :=
  ⟨by decide,
    (C1_import_twice_idempotent_except_updated emptyStore 1 2
      [⟨some ['a'], some ['t'], some ['c'], some 1, some 5,
        some [], some []⟩] (by decide) (by decide)).1⟩
